import Mathlib

/-!
Verification of the screenshot intake-and-processing pipeline of
`screenshot-to-answer` (`watcher.py`, `viewer_bottom.py`).

Python strings are modelled as lists of characters (`Chars`); the
string operations the code uses (`find`, `split`, `strip`, `join`,
`startswith`, `lower`) are embedded as executable functions on those
lists, and the pipeline's state-changing operations (file-system event
handling, queue worker, log mutation, archiving) as pure functions
over explicit state records.
-/

abbrev Chars := List Char

def toL (s : String) : Chars := s.toList

/-- The entry delimiter used throughout the repository: the line "---"
followed by a newline, written as the four characters of the Python
string literal in watcher.py line 234 and viewer_bottom.py line 49. -/
def delim : Chars := toL "---\n"

theorem delim_eq : delim = ['-', '-', '-', '\n'] := rfl

theorem delim_length : delim.length = 4 := rfl

theorem delim_ne_nil : delim ≠ [] := by decide

/-- ASCII whitespace, as recognised by Python str.isspace / str.strip. -/
def isSpaceChar (c : Char) : Bool :=
  c == ' ' || c == '\t' || c == '\n' || c == '\r' || c == '\x0b' || c == '\x0c'

/-- Right half of Python str.strip: trailing whitespace removed. -/
def stripTrail (s : Chars) : Chars := (s.reverse.dropWhile isSpaceChar).reverse

/-- Python str.strip: leading and trailing whitespace removed. -/
def pyStrip (s : Chars) : Chars := (stripTrail s).dropWhile isSpaceChar

/-- The truthiness test "if q.strip()" used by the fragment filter in
viewer_bottom.py line 57. -/
def keepFragment (q : Chars) : Bool := !(pyStrip q).isEmpty

/-- Python s.split(sep, 1) / s.find(sep): the text before and after the
first occurrence of sep in s, or none when sep does not occur
(for nonempty sep; Python rejects an empty separator). -/
def pySplitFirst (sep : Chars) : Chars → Option (Chars × Chars)
  | [] => if sep.isEmpty then some ([], []) else none
  | c :: rest =>
    if sep.isPrefixOf (c :: rest) then
      some ([], (c :: rest).drop sep.length)
    else
      match pySplitFirst sep rest with
      | none => none
      | some (a, b) => some (c :: a, b)

/-- sep occurs somewhere in s as a contiguous substring. -/
def occursIn (sep : Chars) : Chars → Bool
  | [] => sep.isEmpty
  | c :: rest => sep.isPrefixOf (c :: rest) || occursIn sep rest

/-- Fuelled splitting loop underlying `pySplitAll`. -/
def splitAllF (sep : Chars) : Nat → Chars → List Chars
  | 0, s => [s]
  | fuel + 1, s =>
    match pySplitFirst sep s with
    | none => [s]
    | some (a, b) => a :: splitAllF sep fuel b

/-- Python s.split(sep), for a nonempty separator: split s at every
occurrence of sep, keeping empty fragments. -/
def pySplitAll (sep s : Chars) : List Chars := splitAllF sep (s.length + 1) s

/-- Python sep.join(parts). -/
def joinSep (sep : Chars) : List Chars → Chars
  | [] => []
  | [x] => x
  | x :: y :: t => x ++ sep ++ joinSep sep (y :: t)

/-! ### Basic properties of the embedded string operations -/

theorem isPrefixOf_eq_true_iff {p s : Chars} :
    p.isPrefixOf s = true ↔ p <+: s :=
  List.isPrefixOf_iff_prefix

theorem isPrefixOf_append_right {p s t : Chars} (h : p.isPrefixOf s = true) :
    p.isPrefixOf (s ++ t) = true :=
  isPrefixOf_eq_true_iff.mpr
    ((isPrefixOf_eq_true_iff.mp h).trans (List.prefix_append s t))

theorem isPrefixOf_append_of_le {p s t : Chars} (h : p.length ≤ s.length) :
    p.isPrefixOf (s ++ t) = p.isPrefixOf s := by
  cases hps : p.isPrefixOf s with
  | true => exact isPrefixOf_append_right hps
  | false =>
    cases hq : p.isPrefixOf (s ++ t) with
    | false => rfl
    | true =>
      exfalso
      have h2 : p <+: s ++ t := isPrefixOf_eq_true_iff.mp hq
      have h3 : p = (s ++ t).take p.length := List.prefix_iff_eq_take.mp h2
      rw [List.take_append_eq_append_take, Nat.sub_eq_zero_of_le h,
        List.take_zero, List.append_nil] at h3
      have h4 : p.isPrefixOf s = true :=
        isPrefixOf_eq_true_iff.mpr (List.prefix_iff_eq_take.mpr h3)
      rw [h4] at hps
      cases hps

theorem occursIn_cons_false {x : Char} {rest : Chars}
    {sep : Chars} (h : occursIn sep (x :: rest) = false) :
    sep.isPrefixOf (x :: rest) = false ∧ occursIn sep rest = false := by
  rw [occursIn] at h
  exact ⟨by cases hp : sep.isPrefixOf (x :: rest) <;> simp_all,
    by cases ho : occursIn sep rest <;> simp_all⟩

/-- The delimiter has no nontrivial self-overlap, so if it does not occur
inside the nonempty chunk a, it cannot start anywhere within the first
a.length characters of a ++ delim ++ t. -/
theorem delim_not_isPrefixOf_append {a : Chars} (ha : occursIn delim a = false)
    (hne : a ≠ []) (t : Chars) :
    delim.isPrefixOf (a ++ delim ++ t) = false := by
  match a with
  | [] => exact absurd rfl hne
  | [x] =>
    show delim.isPrefixOf (x :: ('-' :: '-' :: '-' :: '\n' :: t)) = false
    rw [delim_eq]
    simp [List.isPrefixOf]
  | [x, y] =>
    show delim.isPrefixOf (x :: y :: ('-' :: '-' :: '-' :: '\n' :: t)) = false
    rw [delim_eq]
    simp [List.isPrefixOf]
  | [x, y, z] =>
    show delim.isPrefixOf (x :: y :: z :: ('-' :: '-' :: '-' :: '\n' :: t)) = false
    rw [delim_eq]
    simp [List.isPrefixOf]
  | x :: y :: z :: w :: rest =>
    have hlen : delim.length ≤ (x :: y :: z :: w :: rest).length := by
      rw [delim_length]; simp
    rw [List.append_assoc, isPrefixOf_append_of_le hlen]
    exact (occursIn_cons_false ha).1

theorem pySplitFirst_delim_append (b : Chars) :
    pySplitFirst delim (delim ++ b) = some ([], b) := by
  show pySplitFirst delim ('-' :: '-' :: '-' :: '\n' :: b) = some ([], b)
  rw [pySplitFirst, delim_eq]
  simp [List.isPrefixOf]

/-- Splitting at the first delimiter of a ++ delim ++ b finds exactly the
boundary after a, whenever the delimiter does not occur inside a. -/
theorem pySplitFirst_concat {a : Chars} (ha : occursIn delim a = false)
    (b : Chars) :
    pySplitFirst delim (a ++ delim ++ b) = some (a, b) := by
  induction a with
  | nil => simpa using pySplitFirst_delim_append b
  | cons c a ih =>
    have hpf : delim.isPrefixOf (c :: (a ++ delim ++ b)) = false :=
      delim_not_isPrefixOf_append ha (by simp) b
    have ha' : occursIn delim a = false := (occursIn_cons_false ha).2
    show pySplitFirst delim (c :: (a ++ delim ++ b)) = some (c :: a, b)
    rw [pySplitFirst, hpf, ih ha']
    simp

theorem pySplitFirst_eq_none_iff {sep s : Chars} :
    pySplitFirst sep s = none ↔ occursIn sep s = false := by
  induction s with
  | nil =>
    rw [pySplitFirst, occursIn]
    cases sep.isEmpty <;> simp
  | cons c rest ih =>
    rw [pySplitFirst, occursIn]
    cases h : sep.isPrefixOf (c :: rest) with
    | true => simp
    | false =>
      simp only [Bool.false_or]
      rw [← ih]
      cases pySplitFirst sep rest <;> simp

theorem pySplitFirst_some_eq {sep s a b : Chars}
    (h : pySplitFirst sep s = some (a, b)) : s = a ++ sep ++ b := by
  induction s generalizing a b with
  | nil =>
    rw [pySplitFirst] at h
    by_cases he : sep.isEmpty
    · rw [if_pos he] at h
      obtain ⟨rfl, rfl⟩ := by simpa using h
      simp [List.isEmpty_iff.mp he]
    · rw [if_neg he] at h
      cases h
  | cons c rest ih =>
    rw [pySplitFirst] at h
    by_cases hp : sep.isPrefixOf (c :: rest) = true
    · rw [if_pos hp] at h
      obtain ⟨t, ht⟩ := isPrefixOf_eq_true_iff.mp hp
      obtain ⟨rfl, rfl⟩ : a = [] ∧ (c :: rest).drop sep.length = b := by
        simpa using h
      rw [← ht, List.drop_left]
      simp [ht]
    · rw [if_neg hp] at h
      cases hm : pySplitFirst sep rest with
      | none => rw [hm] at h; cases h
      | some p =>
        obtain ⟨a', b'⟩ := p
        rw [hm] at h
        obtain ⟨rfl, rfl⟩ : c :: a' = a ∧ b' = b := by simpa using h
        simp [ih hm]

theorem splitAllF_congr {sep : Chars} (hsep : sep ≠ []) :
    ∀ f g s, s.length < f → s.length < g →
      splitAllF sep f s = splitAllF sep g s := by
  intro f
  induction f with
  | zero => intro g s hf; omega
  | succ f ih =>
    intro g s hf hg
    obtain ⟨g', rfl⟩ : ∃ g', g = g' + 1 := ⟨g - 1, by omega⟩
    rw [splitAllF, splitAllF]
    cases hm : pySplitFirst sep s with
    | none => rfl
    | some p =>
      obtain ⟨a, b⟩ := p
      have hs := pySplitFirst_some_eq hm
      have hsp : 0 < sep.length := List.length_pos.mpr hsep
      have hlb : b.length < s.length := by
        rw [hs]; simp [List.length_append]; omega
      simp only []
      exact congrArg _ (ih g' b (by omega) (by omega))

/-- Splitting a ++ delim ++ b on the delimiter peels off a as the first
fragment when the delimiter does not occur inside a. -/
theorem pySplitAll_concat {a : Chars} (ha : occursIn delim a = false)
    (b : Chars) :
    pySplitAll delim (a ++ delim ++ b) = a :: pySplitAll delim b := by
  rw [pySplitAll, splitAllF, pySplitFirst_concat ha]
  simp only []
  congr 1
  exact splitAllF_congr delim_ne_nil _ _ b
    (by simp [List.length_append, delim_length]; omega) (by omega)

theorem pySplitAll_no_occurrence {s : Chars} (hs : occursIn delim s = false) :
    pySplitAll delim s = [s] := by
  rw [pySplitAll, splitAllF, pySplitFirst_eq_none_iff.mpr hs]

theorem pySplitAll_nil : pySplitAll delim [] = [[]] :=
  pySplitAll_no_occurrence rfl

theorem occursIn_nil_sep (t : Chars) : occursIn [] t = true := by
  cases t <;> simp [occursIn, List.isPrefixOf]

theorem occursIn_mono_append {sep s : Chars} (t : Chars)
    (h : occursIn sep s = true) : occursIn sep (s ++ t) = true := by
  induction s with
  | nil =>
    rw [occursIn] at h
    rw [List.isEmpty_iff.mp h]
    exact occursIn_nil_sep t
  | cons c rest ih =>
    rw [occursIn] at h
    show occursIn sep (c :: (rest ++ t)) = true
    rw [occursIn]
    rcases Bool.or_eq_true_iff.mp h with hp | ho
    · rw [show c :: (rest ++ t) = (c :: rest) ++ t from rfl,
        isPrefixOf_append_right hp, Bool.true_or]
    · rw [ih ho, Bool.or_true]

theorem occursIn_false_of_append {sep s t : Chars}
    (h : occursIn sep (s ++ t) = false) : occursIn sep s = false := by
  cases hs : occursIn sep s with
  | false => rfl
  | true => rw [occursIn_mono_append t hs] at h; cases h

/-- Appending one more newline to a newline-terminated, delimiter-free
text cannot create an occurrence of the delimiter (the delimiter ends in
a newline but its other characters are dashes). -/
theorem occursIn_snoc_nl : ∀ w : Chars, occursIn delim w = false →
    w.getLast? = some '\n' → occursIn delim (w ++ ['\n']) = false := by
  intro w
  induction w with
  | nil => intro _ hl; cases hl
  | cons a w' ih =>
    intro hw hl
    obtain ⟨hw1, hw2⟩ := occursIn_cons_false hw
    show occursIn delim (a :: (w' ++ ['\n'])) = false
    rw [occursIn]
    cases w' with
    | nil =>
      have ha : a = '\n' := by simpa using hl
      subst ha
      decide
    | cons b l =>
      have hl' : (b :: l).getLast? = some '\n' := by
        rwa [List.getLast?_cons_cons] at hl
      have hrec : occursIn delim ((b :: l) ++ ['\n']) = false := ih hw2 hl'
      rw [show b :: l ++ ['\n'] = (b :: l) ++ ['\n'] from rfl, hrec, Bool.or_false]
      by_cases hlen : 4 ≤ (a :: b :: l).length
      · have h4 : delim.length ≤ (a :: b :: l).length := by
          rw [delim_length]; exact hlen
        show delim.isPrefixOf ((a :: b :: l) ++ ['\n']) = false
        rw [isPrefixOf_append_of_le h4]
        exact hw1
      · cases l with
        | nil =>
          have hb : b = '\n' := by simpa using hl'
          subst hb
          show delim.isPrefixOf [a, '\n', '\n'] = false
          rw [delim_eq]
          simp [List.isPrefixOf]
        | cons cc l2 =>
          cases l2 with
          | nil =>
            have hc : cc = '\n' := by simpa using hl'
            subst hc
            show delim.isPrefixOf [a, b, '\n', '\n'] = false
            rw [delim_eq]
            simp [List.isPrefixOf]
          | cons dd l3 =>
            exfalso
            apply hlen
            simp

theorem stripTrail_snoc_space {s : Chars} {c : Char}
    (hc : isSpaceChar c = true) : stripTrail (s ++ [c]) = stripTrail s := by
  rw [stripTrail, stripTrail, List.reverse_append]
  simp [List.dropWhile_cons, hc]

theorem pyStrip_snoc_nl (s : Chars) : pyStrip (s ++ ['\n']) = pyStrip s := by
  rw [pyStrip, pyStrip, stripTrail_snoc_space (by decide)]

theorem keepFragment_snoc_nl (s : Chars) :
    keepFragment (s ++ ['\n']) = keepFragment s := by
  rw [keepFragment, keepFragment, pyStrip_snoc_nl]

theorem dropWhile_any {p : Char → Bool} {l : Chars}
    (h : l.any (fun c => !p c) = true) :
    (l.dropWhile p).any (fun c => !p c) = true ∧ l.dropWhile p ≠ [] := by
  induction l with
  | nil => cases h
  | cons a l ih =>
    cases hpa : p a with
    | true =>
      have h' : l.any (fun c => !p c) = true := by
        rw [List.any_cons] at h
        simpa [hpa] using h
      rw [List.dropWhile_cons, if_pos (by simp [hpa])]
      exact ih h'
    | false =>
      rw [List.dropWhile_cons, if_neg (by simp [hpa])]
      refine ⟨?_, by simp⟩
      rw [List.any_cons, hpa]
      simp

/-- A fragment containing any non-whitespace character survives the
"if q.strip()" filter. -/
theorem keepFragment_of_nonspace {s : Chars}
    (h : s.any (fun c => !isSpaceChar c) = true) : keepFragment s = true := by
  have h1 : s.reverse.any (fun c => !isSpaceChar c) = true := by
    rw [List.any_eq_true] at h ⊢
    obtain ⟨x, hx, hp⟩ := h
    exact ⟨x, List.mem_reverse.mpr hx, hp⟩
  have h2 := dropWhile_any h1
  have h3 : (stripTrail s).any (fun c => !isSpaceChar c) = true := by
    rw [stripTrail, List.any_eq_true]
    obtain ⟨x, hx, hp⟩ := List.any_eq_true.mp h2.1
    exact ⟨x, List.mem_reverse.mpr hx, hp⟩
  have h4 := dropWhile_any h3
  rw [keepFragment, pyStrip]
  cases hh : ((stripTrail s).dropWhile isSpaceChar).isEmpty with
  | false => rfl
  | true => exact absurd (List.isEmpty_iff.mp hh) h4.2

/-! ### Splitting a "\n---\n"-joined fragment list -/

/-- The fragments recovered when a "\n---\n"-joined list is re-split on
"---\n": every fragment except the last picks up the extra newline that
the join inserted before the delimiter. -/
def tagNl : List Chars → List Chars
  | [] => []
  | [x] => [x]
  | x :: y :: t => (x ++ ['\n']) :: tagNl (y :: t)

theorem pySplitAll_joinSep {x : Chars} {t : List Chars}
    (h : ∀ e ∈ x :: t, occursIn delim (e ++ ['\n']) = false) :
    pySplitAll delim (joinSep ('\n' :: delim) (x :: t)) = tagNl (x :: t) := by
  induction t generalizing x with
  | nil =>
    have hx : occursIn delim x = false :=
      occursIn_false_of_append (h x (by simp))
    show pySplitAll delim x = [x]
    exact pySplitAll_no_occurrence hx
  | cons y t ih =>
    show pySplitAll delim
        (x ++ ('\n' :: delim) ++ joinSep ('\n' :: delim) (y :: t))
      = (x ++ ['\n']) :: tagNl (y :: t)
    have hre : x ++ ('\n' :: delim) ++ joinSep ('\n' :: delim) (y :: t)
        = (x ++ ['\n']) ++ delim ++ joinSep ('\n' :: delim) (y :: t) := by
      simp
    rw [hre, pySplitAll_concat (h x (by simp)),
      ih (fun e he => h e (by simp [he]))]

theorem tagNl_map_pyStrip : ∀ l : List Chars,
    (tagNl l).map pyStrip = l.map pyStrip := by
  intro l
  induction l with
  | nil => rfl
  | cons x l ih =>
    cases l with
    | nil => rfl
    | cons y t =>
      show pyStrip (x ++ ['\n']) :: (tagNl (y :: t)).map pyStrip
        = pyStrip x :: (y :: t).map pyStrip
      rw [pyStrip_snoc_nl, ih]

theorem tagNl_keep {l : List Chars} (h : ∀ e ∈ l, keepFragment e = true) :
    ∀ e ∈ tagNl l, keepFragment e = true := by
  induction l with
  | nil => intro e he; cases he
  | cons x l ih =>
    cases l with
    | nil =>
      intro e he
      have hex : e = x := by simpa [tagNl] using he
      subst hex
      exact h e (by simp)
    | cons y t =>
      intro e he
      rcases List.mem_cons.mp he with rfl | hmem
      · rw [keepFragment_snoc_nl]
        exact h x (by simp)
      · exact ih (fun e2 he2 => h e2 (by simp [he2])) e hmem

theorem tagNl_noOcc {l : List Chars}
    (h : ∀ e ∈ l, occursIn delim (e ++ ['\n']) = false) :
    ∀ e ∈ tagNl l, occursIn delim (e ++ ['\n']) = false := by
  induction l with
  | nil => intro e he; cases he
  | cons x l ih =>
    cases l with
    | nil =>
      intro e he
      have hex : e = x := by simpa [tagNl] using he
      subst hex
      exact h e (by simp)
    | cons y t =>
      intro e he
      rcases List.mem_cons.mp he with rfl | hmem
      · exact occursIn_snoc_nl (x ++ ['\n']) (h x (by simp))
          (List.getLast?_concat x)
      · exact ih (fun e2 he2 => h e2 (by simp [he2])) e hmem

/-! ### The log document operations (watcher.py, viewer_bottom.py) -/

/-- The entry text built for each answered screenshot, without its
terminating delimiter line (watcher.py lines 243-245): a leading blank
line, the heading line with the source filename, the bold timestamp
line, a blank line, the raw answer, and a trailing blank line. -/
def newEntryBody (name ts answer : Chars) : Chars :=
  toL "\n## Screenshot: " ++ name ++ toL "\n**Time:** " ++ ts ++ toL "\n\n"
    ++ answer ++ toL "\n\n"

/-- The full entry block written by watcher.py lines 243-246: the entry
body followed by the delimiter line "---\n". -/
def newEntry (name ts answer : Chars) : Chars :=
  newEntryBody name ts answer ++ delim

/-- watcher.py lines 233-248: find the first "---\n", keep everything up
to and including it as the header, and insert the new entry between the
header and the remainder; if no delimiter occurs, header is the whole
content and rest is empty, so the entry is appended at the end. -/
def insertNewest (doc name ts answer : Chars) : Chars :=
  match pySplitFirst delim doc with
  | some (h, rest) => (h ++ delim) ++ newEntry name ts answer ++ rest
  | none => doc ++ newEntry name ts answer

/-- The default document synthesized when answers.md does not exist
(watcher.py line 231). -/
def defaultDoc (ts : Chars) : Chars :=
  toL "# Screenshot Answers\n\nStarted: " ++ ts ++ toL "\n\n---\n"

/-- viewer_bottom.py lines 49-50: parts[0] + "---\n" (when the delimiter
is absent, parts == [content], so the header is content + "---\n"). -/
def headerOf (content : Chars) : Chars :=
  match pySplitFirst delim content with
  | none => content ++ delim
  | some (a, _) => a ++ delim

/-- viewer_bottom.py line 51: parts[1] if len(parts) > 1 else "". -/
def bodyOf (content : Chars) : Chars :=
  match pySplitFirst delim content with
  | none => []
  | some (_, b) => b

/-- viewer_bottom.py lines 54-57: split the body on the delimiter and
drop the fragments that are blank after stripping. -/
def entryFragments (content : Chars) : List Chars :=
  (pySplitAll delim (bodyOf content)).filter keepFragment

/-- viewer_bottom.py lines 44-61: the chronological (newest-at-bottom)
document: the header followed by the surviving fragments in reversed
order, joined with "\n---\n". -/
def chronological (content : Chars) : Chars :=
  headerOf content ++ joinSep ('\n' :: delim) (entryFragments content).reverse

/-- A log document in the shape of spec section 6: a header block ending
in the delimiter line, followed by entry blocks each terminated by the
delimiter line. -/
def docOf (h : Chars) (es : List Chars) : Chars :=
  h ++ delim ++ (es.map (fun e => e ++ delim)).flatten

theorem headerOf_concat {h : Chars} (hh : occursIn delim h = false)
    (r : Chars) : headerOf (h ++ delim ++ r) = h ++ delim := by
  rw [headerOf, pySplitFirst_concat hh]

theorem bodyOf_concat {h : Chars} (hh : occursIn delim h = false)
    (r : Chars) : bodyOf (h ++ delim ++ r) = r := by
  rw [bodyOf, pySplitFirst_concat hh]

theorem insertNewest_concat {h : Chars} (hh : occursIn delim h = false)
    (r name ts answer : Chars) :
    insertNewest (h ++ delim ++ r) name ts answer
      = (h ++ delim) ++ newEntry name ts answer ++ r := by
  rw [insertNewest, pySplitFirst_concat hh]

theorem pySplitAll_flatten_append {fs : List Chars} (X : Chars)
    (hf : ∀ f ∈ fs, occursIn delim f = false) :
    pySplitAll delim ((fs.map (fun f => f ++ delim)).flatten ++ X)
      = fs ++ pySplitAll delim X := by
  induction fs with
  | nil => simp
  | cons f fs ih =>
    have h1 : ((f ++ delim) :: fs.map (fun f => f ++ delim)).flatten ++ X
        = f ++ delim ++ ((fs.map (fun f => f ++ delim)).flatten ++ X) := by
      simp
    rw [List.map_cons, h1, pySplitAll_concat (hf f (by simp)),
      ih (fun g hg => hf g (by simp [hg]))]
    rfl

theorem keepFragment_nil : keepFragment [] = false := rfl

theorem entryFragments_docOf {h : Chars} {es : List Chars}
    (hh : occursIn delim h = false)
    (hocc : ∀ e ∈ es, occursIn delim e = false)
    (hkeep : ∀ e ∈ es, keepFragment e = true) :
    entryFragments (docOf h es) = es := by
  rw [entryFragments, docOf, bodyOf_concat hh]
  have h3 := pySplitAll_flatten_append [] hocc
  rw [List.append_nil, pySplitAll_nil] at h3
  rw [h3, List.filter_append, List.filter_eq_self.mpr hkeep]
  simp [keepFragment_nil]

theorem chronological_docOf {h : Chars} {es : List Chars}
    (hh : occursIn delim h = false)
    (hocc : ∀ e ∈ es, occursIn delim e = false)
    (hkeep : ∀ e ∈ es, keepFragment e = true) :
    chronological (docOf h es)
      = h ++ delim ++ joinSep ('\n' :: delim) es.reverse := by
  rw [chronological, entryFragments_docOf hh hocc hkeep, docOf,
    headerOf_concat hh]

/-- One application of the viewer reversal to a header plus a
"\n---\n"-joined fragment list, provided every fragment is nonblank and
delimiter-free even after the inserted newline. -/
theorem chronological_concat_joinSep {h : Chars} {l : List Chars}
    (hh : occursIn delim h = false)
    (hocc : ∀ e ∈ l, occursIn delim (e ++ ['\n']) = false)
    (hkeep : ∀ e ∈ l, keepFragment e = true) :
    entryFragments (h ++ delim ++ joinSep ('\n' :: delim) l) = tagNl l
    ∧ chronological (h ++ delim ++ joinSep ('\n' :: delim) l)
      = h ++ delim ++ joinSep ('\n' :: delim) (tagNl l).reverse := by
  have hfrag : entryFragments (h ++ delim ++ joinSep ('\n' :: delim) l)
      = tagNl l := by
    cases l with
    | nil =>
      rw [entryFragments, bodyOf_concat hh]
      show (pySplitAll delim []).filter keepFragment = []
      rw [pySplitAll_nil]
      simp [keepFragment_nil]
    | cons x t =>
      rw [entryFragments, bodyOf_concat hh, pySplitAll_joinSep hocc,
        List.filter_eq_self.mpr (tagNl_keep hkeep)]
  refine ⟨hfrag, ?_⟩
  rw [chronological, hfrag, headerOf_concat hh]

/-! ### Sequential insertions (claim C5 support) -/

/-- One (sourceFilename, timestamp, answerText) triple. -/
abbrev EntrySpec := Chars × Chars × Chars

/-- N sequential applications of the insert operation, in call order
(the head of the list is inserted first). -/
def insertMany (doc : Chars) (es : List EntrySpec) : Chars :=
  es.foldl (fun d e => insertNewest d e.1 e.2.1 e.2.2) doc

def renderEntry (e : EntrySpec) : Chars := newEntry e.1 e.2.1 e.2.2

def renderBody (e : EntrySpec) : Chars := newEntryBody e.1 e.2.1 e.2.2

theorem renderEntry_eq_body_delim (e : EntrySpec) :
    renderEntry e = renderBody e ++ delim := rfl

theorem renderBody_nonblank (e : EntrySpec) :
    keepFragment (renderBody e) = true := by
  apply keepFragment_of_nonspace
  rw [renderBody, newEntryBody]
  simp only [List.append_assoc, List.any_append]
  rw [show (toL "\n## Screenshot: ").any (fun c => !isSpaceChar c) = true
    from by decide]
  simp

theorem insertMany_concat {h : Chars} (hh : occursIn delim h = false) :
    ∀ (es : List EntrySpec) (r : Chars),
      insertMany (h ++ delim ++ r) es
        = h ++ delim ++ ((es.reverse.map renderEntry).flatten ++ r) := by
  intro es
  induction es with
  | nil => intro r; simp [insertMany]
  | cons e es ih =>
    intro r
    show insertMany (insertNewest (h ++ delim ++ r) e.1 e.2.1 e.2.2) es = _
    rw [insertNewest_concat hh]
    have hassoc : (h ++ delim) ++ newEntry e.1 e.2.1 e.2.2 ++ r
        = h ++ delim ++ (newEntry e.1 e.2.1 e.2.2 ++ r) := by simp
    rw [hassoc, ih]
    simp [renderEntry]

theorem entryFragments_insertMany {h : Chars} (hh : occursIn delim h = false)
    (es : List EntrySpec) (r : Chars)
    (hocc : ∀ e ∈ es, occursIn delim (renderBody e) = false) :
    entryFragments (insertMany (h ++ delim ++ r) es)
      = es.reverse.map renderBody ++ entryFragments (h ++ delim ++ r) := by
  rw [insertMany_concat hh, entryFragments, bodyOf_concat hh]
  have hflat : (es.reverse.map renderEntry).flatten
      = ((es.reverse.map renderBody).map (fun f => f ++ delim)).flatten := by
    rw [List.map_map]
    rfl
  rw [hflat, pySplitAll_flatten_append r ?occ]
  case occ =>
    intro f hf
    obtain ⟨e, he, rfl⟩ := List.mem_map.mp hf
    exact hocc e (List.mem_reverse.mp he)
  rw [List.filter_append,
    List.filter_eq_self.mpr (fun f hf => by
      obtain ⟨e, _, rfl⟩ := List.mem_map.mp hf
      exact renderBody_nonblank e)]
  rw [entryFragments, bodyOf_concat hh]

/-! ### The screenshot classifier (watcher.py lines 116-119, 307-321) -/

/-- Python str.lower, on the ASCII file names involved. -/
def lowerStr (s : Chars) : Chars := s.map Char.toLower

/-- The extension of a file name: its final ".xyz" suffix, empty when
the name contains no dot (the behaviour of posixpath.splitext used by
mimetypes.guess_type, for ordinary file names without a leading dot). -/
def extOf (name : Chars) : Chars :=
  if (name.reverse.takeWhile (fun c => !(c == '.'))).length == name.length
  then []
  else '.' :: (name.reverse.takeWhile (fun c => !(c == '.'))).reverse

/-- The mimetypes.guess_type extension table, restricted to the
extensions exercised by this development (Python stdlib mimetypes;
lookup is on the lower-cased extension, unknown extensions give none,
matching guess_type returning (None, None)). -/
def mimeTable : List (Chars × Chars) :=
  [(toL ".png", toL "image/png"), (toL ".jpg", toL "image/jpeg"),
   (toL ".jpeg", toL "image/jpeg"), (toL ".gif", toL "image/gif"),
   (toL ".tiff", toL "image/tiff"), (toL ".tif", toL "image/tiff"),
   (toL ".bmp", toL "image/bmp"), (toL ".heic", toL "image/heic"),
   (toL ".webp", toL "image/webp"), (toL ".pdf", toL "application/pdf"),
   (toL ".mov", toL "video/quicktime"), (toL ".mp4", toL "video/mp4"),
   (toL ".txt", toL "text/plain")]

def guessMime (name : Chars) : Option Chars :=
  (mimeTable.find? (fun p => p.1 == lowerStr (extOf name))).map
    (fun p => p.2)

/-- watcher.py lines 116-119: mime_type and
mime_type.startswith("image"). -/
def isImageFile (name : Chars) : Bool :=
  match guessMime name with
  | none => false
  | some m => (toL "image").isPrefixOf m

/-- watcher.py lines 318-320: name.startswith("Screen Shot") or
name.startswith("Screenshot") or name.lower().startswith("screen"). -/
def screenshotName (name : Chars) : Bool :=
  (toL "Screen Shot").isPrefixOf name
    || (toL "Screenshot").isPrefixOf name
    || (toL "screen").isPrefixOf (lowerStr name)

/-- The pure classifier: the two name-dependent checks that let a
creation event proceed toward the queue. -/
def isCandidate (name : Chars) : Bool :=
  isImageFile name && screenshotName name

/-- Written from the spec's words (sections 4.1 and 8): media type is an
image type, and the base name matches a case-insensitive prefix of one
of the patterns "screenshot", "screen shot", "screen". -/
def specNameMatch (name : Chars) : Bool :=
  (toL "screenshot").isPrefixOf (lowerStr name)
    || (toL "screen shot").isPrefixOf (lowerStr name)
    || (toL "screen").isPrefixOf (lowerStr name)

/-- Written from the spec's words: the spec-side classifier. -/
def isCandidateSpec (name : Chars) : Bool :=
  isImageFile name && specNameMatch name

theorem lowerStr_isPrefixOf_mono {p name : Chars}
    (h : p.isPrefixOf name = true) :
    (lowerStr p).isPrefixOf (lowerStr name) = true :=
  isPrefixOf_eq_true_iff.mpr
    (List.IsPrefix.map Char.toLower (isPrefixOf_eq_true_iff.mp h))

theorem isPrefixOf_trans {p q s : Chars} (h1 : p.isPrefixOf q = true)
    (h2 : q.isPrefixOf s = true) : p.isPrefixOf s = true :=
  isPrefixOf_eq_true_iff.mpr
    ((isPrefixOf_eq_true_iff.mp h1).trans
      (isPrefixOf_eq_true_iff.mp h2))

theorem screenshotName_eq_spec (name : Chars) :
    screenshotName name = specNameMatch name := by
  cases hC : (toL "screen").isPrefixOf (lowerStr name) with
  | true => rw [screenshotName, specNameMatch, hC]; simp
  | false =>
    rw [screenshotName, specNameMatch, hC, Bool.or_false, Bool.or_false]
    have hA : (toL "Screen Shot").isPrefixOf name = false := by
      cases hx : (toL "Screen Shot").isPrefixOf name with
      | false => rfl
      | true =>
        exfalso
        have h1 := lowerStr_isPrefixOf_mono hx
        have h2 : (toL "screen").isPrefixOf (lowerStr (toL "Screen Shot"))
            = true := by decide
        rw [isPrefixOf_trans h2 h1] at hC
        cases hC
    have hB : (toL "Screenshot").isPrefixOf name = false := by
      cases hx : (toL "Screenshot").isPrefixOf name with
      | false => rfl
      | true =>
        exfalso
        have h1 := lowerStr_isPrefixOf_mono hx
        have h2 : (toL "screen").isPrefixOf (lowerStr (toL "Screenshot"))
            = true := by decide
        rw [isPrefixOf_trans h2 h1] at hC
        cases hC
    have hA2 : (toL "screenshot").isPrefixOf (lowerStr name) = false := by
      cases hx : (toL "screenshot").isPrefixOf (lowerStr name) with
      | false => rfl
      | true =>
        exfalso
        have h2 : (toL "screen").isPrefixOf (toL "screenshot") = true := by
          decide
        rw [isPrefixOf_trans h2 hx] at hC
        cases hC
    have hB2 : (toL "screen shot").isPrefixOf (lowerStr name) = false := by
      cases hx : (toL "screen shot").isPrefixOf (lowerStr name) with
      | false => rfl
      | true =>
        exfalso
        have h2 : (toL "screen").isPrefixOf (toL "screen shot") = true := by
          decide
        rw [isPrefixOf_trans h2 hx] at hC
        cases hC
    rw [hA, hB, hA2, hB2]

/-! ### Event handling and de-duplication (watcher.py lines 293-330) -/

structure WatchEvent where
  isDir : Bool
  name : Chars
  existsAfter : Bool
  sizePos : Bool

structure WatchState where
  processing : List Chars
  queue : List Chars
deriving DecidableEq

/-- watcher.py lines 299-330, the on_created handler, with the checks in
source order: directory events are ignored; non-image files are skipped;
paths already in the in-flight set are skipped; names not matching the
screenshot pattern are skipped; after the settling delay the file must
still exist with positive size; only then is the path added to the
in-flight set and enqueued. The watched directory is fixed, so a path is
identified by its file name here. -/
def onCreated (s : WatchState) (e : WatchEvent) : WatchState :=
  if e.isDir then s
  else if !(isImageFile e.name) then s
  else if e.name ∈ s.processing then s
  else if !(screenshotName e.name) then s
  else if e.existsAfter && e.sizePos then
    { processing := e.name :: s.processing, queue := s.queue ++ [e.name] }
  else s

/-! ### The queue worker (watcher.py lines 277-291) -/

/-- A queue item: a job path or the sentinel None. -/
inductive QItem where
  | job (p : Chars)
  | sentinel
deriving DecidableEq

/-- watcher.py lines 283-291 together with lines 277-281: the worker
loop dequeues items in order; the sentinel (None poison pill) breaks the
loop; otherwise the job goes to process_screenshot, whose try/except
catches every exception and turns it into a False return value, after
which the loop continues with the next item. The outcome parameter
gives each job's success flag; the result is the list of processed jobs
with their outcomes, paired with whether the loop exited. -/
def runWorker (outcome : Chars → Bool) : List QItem → List (Chars × Bool) × Bool
  | [] => ([], false)
  | QItem.sentinel :: _ => ([], true)
  | QItem.job p :: rest =>
    ((p, outcome p) :: (runWorker outcome rest).1, (runWorker outcome rest).2)

/-- Specification-side description of what gets processed: every job
before the first sentinel. -/
def jobsBeforeSentinel : List QItem → List Chars
  | [] => []
  | QItem.sentinel :: _ => []
  | QItem.job p :: rest => p :: jobsBeforeSentinel rest

theorem runWorker_processed (outcome : Chars → Bool) :
    ∀ items : List QItem,
      ((runWorker outcome items).1).map Prod.fst = jobsBeforeSentinel items := by
  intro items
  induction items with
  | nil => rfl
  | cons i rest ih =>
    cases i with
    | sentinel => rfl
    | job p =>
      show p :: ((runWorker outcome rest).1).map Prod.fst
        = p :: jobsBeforeSentinel rest
      rw [ih]

theorem runWorker_exits_iff (outcome : Chars → Bool) :
    ∀ items : List QItem,
      (runWorker outcome items).2 = true ↔ QItem.sentinel ∈ items := by
  intro items
  induction items with
  | nil => simp [runWorker]
  | cons i rest ih =>
    cases i with
    | sentinel => simp [runWorker]
    | job p =>
      show (runWorker outcome rest).2 = true ↔ _
      rw [ih]
      simp

/-! ### Archiving with collision renaming (watcher.py lines 256-267) -/

def digitChar (d : Nat) : Char := Char.ofNat (48 + d)

/-- Decimal digit string of a natural number (Python str(counter)),
computed by fuelled division. -/
def decDigits : Nat → Nat → Chars
  | 0, _ => []
  | fuel + 1, n =>
    if n < 10 then [digitChar n]
    else decDigits fuel (n / 10) ++ [digitChar (n % 10)]

def natDec (n : Nat) : Chars := decDigits (n + 1) n

/-- Decimal decoding, used to show natDec is injective. -/
def decodeDec (s : Chars) : Nat :=
  s.foldl (fun a c => 10 * a + (c.toNat - 48)) 0

/-- The candidate archive name for counter value k:
f"{stem}_{counter}{suffix}" from watcher.py line 264. -/
def candidate (stem suffix : Chars) (k : Nat) : Chars :=
  stem ++ ('_' :: natDec k) ++ suffix

/-- watcher.py lines 260-265: while the current candidate exists in the
archive directory, rebuild it from the stem with the next counter.
existing lists the names present in the archive; the fuel bounds the
loop (existing is finite, so existing.length + 1 iterations reach a
free name). -/
def archiveFrom (existing : List Chars) (stem suffix : Chars) :
    Nat → Chars → Nat → Chars
  | 0, current, _ => current
  | fuel + 1, current, counter =>
    if current ∈ existing then
      archiveFrom existing stem suffix fuel (candidate stem suffix counter)
        (counter + 1)
    else current

/-- watcher.py lines 257-266: the archive destination name chosen for a
source file with the given stem and suffix. -/
def archivePath (existing : List Chars) (stem suffix : Chars) : Chars :=
  archiveFrom existing stem suffix (existing.length + 1) (stem ++ suffix) 1

theorem digitChar_toNat {d : Nat} (h : d < 10) :
    (digitChar d).toNat = 48 + d := by
  interval_cases d <;> decide

theorem decodeDec_append_singleton (a : Chars) (c : Char) :
    decodeDec (a ++ [c]) = 10 * decodeDec a + (c.toNat - 48) := by
  rw [decodeDec, decodeDec, List.foldl_append]
  rfl

theorem decodeDec_decDigits : ∀ fuel n, n < fuel →
    decodeDec (decDigits fuel n) = n := by
  intro fuel
  induction fuel with
  | zero => intro n h; omega
  | succ fuel ih =>
    intro n h
    rw [decDigits]
    by_cases h10 : n < 10
    · rw [if_pos h10]
      show decodeDec [digitChar n] = n
      have := digitChar_toNat h10
      rw [decodeDec]
      simp [this]
    · rw [if_neg h10]
      have hlt : n / 10 < n := Nat.div_lt_self (by omega) (by omega)
      have hrec := ih (n / 10) (by omega)
      rw [decodeDec_append_singleton, hrec,
        digitChar_toNat (Nat.mod_lt n (by omega))]
      omega

theorem natDec_inj {a b : Nat} (h : natDec a = natDec b) : a = b := by
  have ha : decodeDec (natDec a) = a := decodeDec_decDigits (a + 1) a (by omega)
  have hb : decodeDec (natDec b) = b := decodeDec_decDigits (b + 1) b (by omega)
  rw [h, hb] at ha
  omega

theorem candidate_inj {stem suffix : Chars} {k1 k2 : Nat}
    (h : candidate stem suffix k1 = candidate stem suffix k2) : k1 = k2 := by
  rw [candidate, candidate] at h
  have h1 := List.append_cancel_right h
  have h2 := List.append_cancel_left h1
  exact natDec_inj (List.cons.injEq .. |>.mp h2).2

theorem archiveFrom_not_mem {existing : List Chars} {stem suffix : Chars} :
    ∀ (fuel : Nat) (current : Chars) (counter : Nat),
      (current ∉ existing ∨
        ∃ k, counter ≤ k ∧ k < counter + fuel ∧
          candidate stem suffix k ∉ existing) →
      archiveFrom existing stem suffix fuel current counter ∉ existing := by
  intro fuel
  induction fuel with
  | zero =>
    intro current counter h
    rcases h with h | ⟨k, hk1, hk2, _⟩
    · exact h
    · exfalso; omega
  | succ fuel ih =>
    intro current counter h
    rw [archiveFrom]
    by_cases hc : current ∈ existing
    · rw [if_pos hc]
      apply ih
      rcases h with h | ⟨k, hk1, hk2, hk3⟩
      · exact absurd hc h
      · by_cases hkc : k = counter
        · subst hkc; exact Or.inl hk3
        · exact Or.inr ⟨k, by omega, by omega, hk3⟩
    · rw [if_neg hc]
      exact hc

theorem exists_free_candidate (existing : List Chars) (stem suffix : Chars) :
    ∃ k, 1 ≤ k ∧ k < existing.length + 2 ∧
      candidate stem suffix k ∉ existing := by
  by_contra hno
  push_neg at hno
  have hinj : Function.Injective (fun i : Nat => candidate stem suffix (i + 1)) := by
    intro a b hab
    have := candidate_inj hab
    omega
  have hsub : (Finset.range (existing.length + 1)).image
      (fun i => candidate stem suffix (i + 1)) ⊆ existing.toFinset := by
    intro x hx
    rw [Finset.mem_image] at hx
    obtain ⟨i, hi, rfl⟩ := hx
    rw [Finset.mem_range] at hi
    rw [List.mem_toFinset]
    exact hno (i + 1) (by omega) (by omega)
  have hcard := Finset.card_le_card hsub
  rw [Finset.card_image_of_injective _ hinj, Finset.card_range] at hcard
  have := existing.toFinset_card_le
  omega

theorem archivePath_not_mem (existing : List Chars) (stem suffix : Chars) :
    archivePath existing stem suffix ∉ existing := by
  rw [archivePath]
  apply archiveFrom_not_mem
  obtain ⟨k, h1, h2, h3⟩ := exists_free_candidate existing stem suffix
  exact Or.inr ⟨k, h1, by omega, h3⟩

theorem archivePath_free (existing : List Chars) {stem suffix : Chars}
    (h : stem ++ suffix ∉ existing) :
    archivePath existing stem suffix = stem ++ suffix := by
  rw [archivePath, archiveFrom, if_neg h]

theorem archivePath_one_collision {existing : List Chars} {stem suffix : Chars}
    (h1 : stem ++ suffix ∈ existing)
    (h2 : candidate stem suffix 1 ∉ existing) :
    archivePath existing stem suffix = candidate stem suffix 1 := by
  rw [archivePath]
  obtain ⟨L, hL⟩ : ∃ L, existing.length = L + 1 := by
    cases hx : existing with
    | nil => rw [hx] at h1; cases h1
    | cons a t => exact ⟨t.length, by simp⟩
  rw [hL, archiveFrom, if_pos h1, archiveFrom, if_neg h2]

/-! ### Job processing (watcher.py lines 135-281) -/

/-- The status record written to status.json (watcher.py lines 121-133):
{filename, status, details} plus a timestamp external to this model. -/
structure StatusRec where
  filename : Chars
  status : Chars
  details : Chars
deriving DecidableEq

/-- The externally visible state touched by one job: the answers
document (none when answers.md does not exist), the names in the
archive directory, whether the source file is still in place, and the
last written status record. -/
structure PipeState where
  answersDoc : Option Chars
  processedNames : List Chars
  sourcePresent : Bool
  statusRec : Option StatusRec
deriving DecidableEq

/-- watcher.py lines 135-281, as a function of the provider outcome.
On a raised provider error the except branch (lines 277-281) runs:
the final status write is the Error record with the exception text, and
no other state is touched (the log write, archive move, and Completed
status all come after the provider call). On success, the answer is
inserted into the document (synthesizing the default document when
absent, line 231), the source is moved to a collision-free archive
name, and the Completed record is written. The two intermediate
Processing status writes are overwritten by the final write and the
model keeps only the last record. -/
def processScreenshot (st : PipeState) (name stem suffix ts : Chars)
    (provider : Except Chars Chars) : PipeState × Bool :=
  match provider with
  | Except.error e =>
    ({ st with statusRec := some ⟨name, toL "Error", e⟩ }, false)
  | Except.ok answer =>
    ({ answersDoc := some (insertNewest
          (match st.answersDoc with
           | some d => d
           | none => defaultDoc ts) name ts answer)
       processedNames :=
         archivePath st.processedNames stem suffix :: st.processedNames
       sourcePresent := false
       statusRec := some ⟨name, toL "Completed", toL "Answer added to viewer"⟩ },
     true)

/-! ### Provider request shapes (watcher.py lines 158-221) -/

/-- The OpenAI image part (watcher.py lines 171-176): a type tag and a
base64 data URL. -/
structure OpenAIImagePart where
  partType : Chars
  url : Chars
deriving DecidableEq

def mkOpenAIImagePart (b64 : Chars) : OpenAIImagePart :=
  ⟨toL "image_url", toL "data:image/png;base64," ++ b64⟩

/-- The Anthropic image source (watcher.py lines 197-204). -/
structure AnthropicImageSource where
  sourceType : Chars
  mediaType : Chars
  data : Chars
deriving DecidableEq

def mkAnthropicImageSource (b64 : Chars) : AnthropicImageSource :=
  ⟨toL "base64", toL "image/png", b64⟩

/-- The Gemini image part (watcher.py line 219), carrying raw bytes. -/
structure GeminiImagePart where
  mimeType : Chars
  data : Chars
deriving DecidableEq

def mkGeminiImagePart (imageData : Chars) : GeminiImagePart :=
  ⟨toL "image/png", imageData⟩

/-- The media type declared by a data URL: the text between "data:" and
the first ";". -/
def dataUrlMediaType (url : Chars) : Chars :=
  (url.drop 5).takeWhile (fun c => !(c == ';'))

/-! ### The write step of the log mutation (watcher.py lines 250-251) -/

/-- open(ANSWERS_FILE, "w") truncates the file on open and the
subsequent f.write fills in the new content, so the observable sequence
of file states around one insert is: the old document, the empty
truncated file, the new document. No temporary file, rename, or lock is
involved. -/
def insertObservations (doc name ts answer : Chars) : List Chars :=
  [doc, [], insertNewest doc name ts answer]

theorem insertNewest_ne_nil (doc name ts answer : Chars) :
    insertNewest doc name ts answer ≠ [] := by
  intro hc
  rw [insertNewest] at hc
  cases hm : pySplitFirst delim doc with
  | none =>
    rw [hm] at hc
    have hlen := congrArg List.length hc
    rw [List.length_append, newEntry, List.length_append, delim_length] at hlen
    simp at hlen
  | some p =>
    obtain ⟨hh, rr⟩ := p
    rw [hm] at hc
    have hlen := congrArg List.length hc
    rw [List.length_append, List.length_append, List.length_append,
      delim_length] at hlen
    simp at hlen

/-! ### Claim theorems -/

/-- C1, counterexample: on a well-formed document with one entry, the
chronological reversal applied twice is not textually the identity (it
drops the trailing delimiter line). -/
theorem chronological_twice_not_identity :
    chronological (chronological (docOf
        (toL "# Screenshot Answers\n\nStarted: now\n")
        [toL "\n## Screenshot: s.png\n**Time:** T\n\nAns\n\n"]))
      ≠ docOf (toL "# Screenshot Answers\n\nStarted: now\n")
        [toL "\n## Screenshot: s.png\n**Time:** T\n\nAns\n\n"] := by
  decide

/-- C1 (amended): for a well-formed log document with 0, 1, or N
entries, applying the chronological reversal twice preserves the header
and restores the entry order: the parsed entry fragments of the
doubly-reversed document coincide with the original entry fragments
modulo surrounding whitespace. Textual identity fails (the trailing
delimiter line is dropped and blank lines accumulate), as the
counterexample shows. -/
theorem chronological_twice_order {h : Chars} {es : List Chars}
    (hh : occursIn delim h = false)
    (hocc : ∀ e ∈ es, occursIn delim (e ++ ['\n']) = false)
    (hkeep : ∀ e ∈ es, keepFragment e = true) :
    headerOf (chronological (chronological (docOf h es)))
      = headerOf (docOf h es)
    ∧ (entryFragments (chronological (chronological (docOf h es)))).map pyStrip
      = (entryFragments (docOf h es)).map pyStrip := by
  have hocc0 : ∀ e ∈ es, occursIn delim e = false := fun e he =>
    occursIn_false_of_append (hocc e he)
  have hrocc : ∀ e ∈ es.reverse, occursIn delim (e ++ ['\n']) = false :=
    fun e he => hocc e (List.mem_reverse.mp he)
  have hrkeep : ∀ e ∈ es.reverse, keepFragment e = true :=
    fun e he => hkeep e (List.mem_reverse.mp he)
  have hd1 : chronological (docOf h es)
      = h ++ delim ++ joinSep ('\n' :: delim) es.reverse :=
    chronological_docOf hh hocc0 hkeep
  have step1 := chronological_concat_joinSep hh hrocc hrkeep
  have h2occ : ∀ e ∈ (tagNl es.reverse).reverse,
      occursIn delim (e ++ ['\n']) = false := fun e he =>
    tagNl_noOcc hrocc e (List.mem_reverse.mp he)
  have h2keep : ∀ e ∈ (tagNl es.reverse).reverse, keepFragment e = true :=
    fun e he => tagNl_keep hrkeep e (List.mem_reverse.mp he)
  have step2 := chronological_concat_joinSep hh h2occ h2keep
  have hd2 : chronological (chronological (docOf h es))
      = h ++ delim ++ joinSep ('\n' :: delim) (tagNl es.reverse).reverse := by
    rw [hd1, step1.2]
  constructor
  · rw [hd2, headerOf_concat hh, docOf, headerOf_concat hh]
  · rw [hd2, step2.1, entryFragments_docOf hh hocc0 hkeep,
      tagNl_map_pyStrip, List.map_reverse, tagNl_map_pyStrip,
      List.map_reverse, List.reverse_reverse]

/-- C1, witness: the amended statement evaluated on a concrete
one-entry document. -/
theorem chronological_twice_order_witness :
    headerOf (chronological (chronological (docOf
        (toL "# Screenshot Answers\n\nStarted: now\n")
        [toL "\n## Screenshot: s.png\n**Time:** T\n\nAns\n\n"])))
      = headerOf (docOf (toL "# Screenshot Answers\n\nStarted: now\n")
        [toL "\n## Screenshot: s.png\n**Time:** T\n\nAns\n\n"])
    ∧ (entryFragments (chronological (chronological (docOf
        (toL "# Screenshot Answers\n\nStarted: now\n")
        [toL "\n## Screenshot: s.png\n**Time:** T\n\nAns\n\n"])))).map pyStrip
      = (entryFragments (docOf (toL "# Screenshot Answers\n\nStarted: now\n")
        [toL "\n## Screenshot: s.png\n**Time:** T\n\nAns\n\n"])).map pyStrip :=
  chronological_twice_order (by decide) (by decide) (by decide)

/-- C2: on an existing document consisting of a delimiter-free header h,
the delimiter line, and the remaining entry blocks r, the insert
operation writes exactly the header verbatim, then the new entry, then
r verbatim; in particular the header block of the written document is
that of the original. -/
theorem insertNewest_preserves_header_and_entries
    (h r name ts answer : Chars) (hh : occursIn delim h = false) :
    insertNewest (h ++ delim ++ r) name ts answer
      = (h ++ delim) ++ (newEntry name ts answer ++ r)
    ∧ headerOf (insertNewest (h ++ delim ++ r) name ts answer)
      = headerOf (h ++ delim ++ r) := by
  have h1 := insertNewest_concat hh r name ts answer
  have hassoc : (h ++ delim) ++ newEntry name ts answer ++ r
      = h ++ delim ++ (newEntry name ts answer ++ r) := by simp
  constructor
  · rw [h1, hassoc]
  · rw [h1, hassoc, headerOf_concat hh, headerOf_concat hh]

/-- C2, witness: the insert equation on a concrete document. -/
theorem insertNewest_preserves_witness :
    insertNewest (toL "# H\n" ++ delim ++ toL "\nold entry\n\n---\n")
        (toL "s.png") (toL "T") (toL "Ans")
      = (toL "# H\n" ++ delim)
        ++ (newEntry (toL "s.png") (toL "T") (toL "Ans")
            ++ toL "\nold entry\n\n---\n")
    ∧ headerOf (insertNewest (toL "# H\n" ++ delim ++ toL "\nold entry\n\n---\n")
        (toL "s.png") (toL "T") (toL "Ans"))
      = headerOf (toL "# H\n" ++ delim ++ toL "\nold entry\n\n---\n") :=
  insertNewest_preserves_header_and_entries _ _ _ _ _ (by decide)

theorem onCreated_cases (s : WatchState) (e : WatchEvent) :
    onCreated s e = s ∨
      (e.isDir = false ∧ isImageFile e.name = true ∧
        e.name ∉ s.processing ∧ screenshotName e.name = true ∧
        onCreated s e = { processing := e.name :: s.processing,
                          queue := s.queue ++ [e.name] }) := by
  rw [onCreated]
  split_ifs with h1 h2 h3 h4 h5
  · exact Or.inl rfl
  · exact Or.inl rfl
  · exact Or.inl rfl
  · exact Or.inl rfl
  · refine Or.inr ⟨by simpa using h1, by simpa using h2, h3, by simpa using h4, rfl⟩
  · exact Or.inl rfl

theorem onCreated_accepts (s : WatchState) (e : WatchEvent)
    (hd : e.isDir = false) (hi : isImageFile e.name = true)
    (hm : e.name ∉ s.processing) (hn : screenshotName e.name = true)
    (he : e.existsAfter = true) (hs : e.sizePos = true) :
    onCreated s e = { processing := e.name :: s.processing,
                      queue := s.queue ++ [e.name] } := by
  rw [onCreated]
  simp [hd, hi, hm, hn, he, hs]

theorem onCreated_idem (s : WatchState) (e : WatchEvent) :
    onCreated (onCreated s e) e = onCreated s e := by
  rcases onCreated_cases s e with hc | ⟨hd, hi, _, _, hc⟩
  · rw [hc]; exact hc
  · rw [hc]
    rw [onCreated]
    simp [hd, hi]

theorem onCreated_processing_monotone (s : WatchState) (e : WatchEvent) :
    ∀ p ∈ s.processing, p ∈ (onCreated s e).processing := by
  intro p hp
  rcases onCreated_cases s e with hc | ⟨_, _, _, _, hc⟩
  · rw [hc]; exact hp
  · rw [hc]; exact List.mem_cons_of_mem _ hp

/-- C3: the in-flight set only ever grows (no operation removes a path
during the run); delivering the same creation event again while the
path is in flight changes nothing (dedup); and a fresh accepted path is
enqueued exactly once even when the event is delivered twice. -/
theorem onCreated_dedup_invariant (s : WatchState) (e : WatchEvent) :
    (∀ p ∈ s.processing, p ∈ (onCreated s e).processing)
    ∧ onCreated (onCreated s e) e = onCreated s e
    ∧ (e.isDir = false → isImageFile e.name = true →
        e.name ∉ s.processing → screenshotName e.name = true →
        e.existsAfter = true → e.sizePos = true →
        (onCreated s e).queue = s.queue ++ [e.name]
        ∧ (onCreated (onCreated s e) e).queue = s.queue ++ [e.name]
        ∧ e.name ∈ (onCreated s e).processing) := by
  refine ⟨onCreated_processing_monotone s e, onCreated_idem s e, ?_⟩
  intro hd hi hm hn he hs
  have hacc := onCreated_accepts s e hd hi hm hn he hs
  refine ⟨by rw [hacc], ?_, by rw [hacc]; exact List.mem_cons_self _ _⟩
  rw [onCreated_idem, hacc]

/-- C3, witness: a concrete fresh screenshot event delivered twice ends
with one queued job and an unchanged second delivery. -/
theorem onCreated_dedup_invariant_witness :
    (onCreated ⟨[], []⟩ ⟨false, toL "Screenshot 1.png", true, true⟩).queue
      = [] ++ [toL "Screenshot 1.png"]
    ∧ onCreated (onCreated ⟨[], []⟩ ⟨false, toL "Screenshot 1.png", true, true⟩)
        ⟨false, toL "Screenshot 1.png", true, true⟩
      = onCreated ⟨[], []⟩ ⟨false, toL "Screenshot 1.png", true, true⟩ := by
  have h := onCreated_dedup_invariant ⟨[], []⟩
    ⟨false, toL "Screenshot 1.png", true, true⟩
  have h3 := h.2.2 rfl (by decide) (by simp) (by decide) rfl rfl
  exact ⟨h3.1, h.2.1⟩

/-- C4: when the provider call raises, the job ends with the Error
status record carrying the error detail, the source file is not moved
to the archive, and the answers document (and every other piece of
state) is byte-for-byte unchanged. -/
theorem processScreenshot_provider_error (st : PipeState)
    (name stem suffix ts errDetail : Chars) :
    processScreenshot st name stem suffix ts (Except.error errDetail)
      = ({ st with statusRec := some ⟨name, toL "Error", errDetail⟩ }, false)
    ∧ (processScreenshot st name stem suffix ts
        (Except.error errDetail)).1.answersDoc = st.answersDoc
    ∧ (processScreenshot st name stem suffix ts
        (Except.error errDetail)).1.processedNames = st.processedNames
    ∧ (processScreenshot st name stem suffix ts
        (Except.error errDetail)).1.sourcePresent = st.sourcePresent
    ∧ (processScreenshot st name stem suffix ts
        (Except.error errDetail)).1.statusRec
      = some ⟨name, toL "Error", errDetail⟩ :=
  ⟨rfl, rfl, rfl, rfl, rfl⟩

/-- C5: starting from any document with a delimiter-free header, N
sequential inserts produce the header, then the rendered entries in
reverse call order (most recent first), then the original remainder;
parsing the result yields exactly the new entry bodies in that order
followed by the original fragments; and each rendered entry is the
heading line with the source filename, the bold timestamp line, a
blank line, the raw answer, a blank line, and the delimiter line, in
that fixed order. -/
theorem insertMany_newest_first {h : Chars} (hh : occursIn delim h = false)
    (r : Chars) (es : List EntrySpec)
    (hocc : ∀ e ∈ es, occursIn delim (renderBody e) = false) :
    insertMany (h ++ delim ++ r) es
      = h ++ delim ++ ((es.reverse.map renderEntry).flatten ++ r)
    ∧ entryFragments (insertMany (h ++ delim ++ r) es)
      = es.reverse.map renderBody ++ entryFragments (h ++ delim ++ r)
    ∧ ∀ e ∈ es, renderEntry e
        = toL "\n## Screenshot: " ++ e.1 ++ (toL "\n**Time:** " ++ (e.2.1
          ++ (toL "\n\n" ++ (e.2.2 ++ (toL "\n\n" ++ delim))))) := by
  refine ⟨insertMany_concat hh es r, entryFragments_insertMany hh es r hocc,
    fun e _ => ?_⟩
  rw [renderEntry, newEntry, newEntryBody]
  simp

/-- C5, witness: two sequential inserts on a concrete document leave the
two entries newest-first under the header. -/
theorem insertMany_newest_first_witness :
    insertMany (toL "# H\n" ++ delim ++ [])
        [(toL "a.png", toL "T1", toL "A1"), (toL "b.png", toL "T2", toL "A2")]
      = toL "# H\n" ++ delim
        ++ (([(toL "a.png", toL "T1", toL "A1"),
              (toL "b.png", toL "T2", toL "A2")].reverse.map
                renderEntry).flatten ++ [])
    ∧ entryFragments (insertMany (toL "# H\n" ++ delim ++ [])
        [(toL "a.png", toL "T1", toL "A1"), (toL "b.png", toL "T2", toL "A2")])
      = [(toL "a.png", toL "T1", toL "A1"),
         (toL "b.png", toL "T2", toL "A2")].reverse.map renderBody
        ++ entryFragments (toL "# H\n" ++ delim ++ []) := by
  have h := insertMany_newest_first (h := toL "# H\n") (by decide) []
    [(toL "a.png", toL "T1", toL "A1"), (toL "b.png", toL "T2", toL "A2")]
    (by decide)
  exact ⟨h.1, h.2.1⟩

/-- C6: the classifier accepts a path exactly when the spec-side
classifier does (image media type plus a case-insensitive prefix match
of "screenshot", "screen shot", or "screen"), and it decides the
spec's three examples as stated. -/
theorem isCandidate_iff_spec :
    (∀ name : Chars, isCandidate name = isCandidateSpec name)
    ∧ isCandidate (toL "document.pdf") = false
    ∧ isCandidate (toL "Screenshot 2025-01-01.png") = true
    ∧ isCandidate (toL "screen_recording.mov") = false := by
  refine ⟨?_, by decide, by decide, by decide⟩
  intro name
  rw [isCandidate, isCandidateSpec, screenshotName_eq_spec]

/-- C7: the worker loop exits exactly when the sentinel is in the item
stream, and the processed jobs are precisely the jobs queued before the
first sentinel, independently of each job's success or failure (every
per-job error is absorbed by the except branch and the loop
continues). -/
theorem queueWorker_sentinel_and_isolation (outcome : Chars → Bool)
    (items : List QItem) :
    ((runWorker outcome items).2 = true ↔ QItem.sentinel ∈ items)
    ∧ ((runWorker outcome items).1).map Prod.fst = jobsBeforeSentinel items
    ∧ ∀ outcome2 : Chars → Bool,
        ((runWorker outcome2 items).1).map Prod.fst
          = ((runWorker outcome items).1).map Prod.fst
        ∧ (runWorker outcome2 items).2 = (runWorker outcome items).2 := by
  refine ⟨runWorker_exits_iff outcome items, runWorker_processed outcome items,
    fun outcome2 => ⟨?_, ?_⟩⟩
  · rw [runWorker_processed, runWorker_processed]
  · cases h2 : (runWorker outcome2 items).2 with
    | true =>
      rw [(runWorker_exits_iff outcome items).mpr
        ((runWorker_exits_iff outcome2 items).mp h2)]
    | false =>
      cases h1 : (runWorker outcome items).2 with
      | false => rfl
      | true =>
        rw [(runWorker_exits_iff outcome2 items).mpr
          ((runWorker_exits_iff outcome items).mp h1)] at h2
        exact absurd h2 (by decide)

/-- C8: the archive destination never collides with a name already in
the archive directory; a fresh name is kept as is; and on a collision
the first free numeric suffix is used, starting with "_1" before the
extension. -/
theorem archive_collision_renaming (existing : List Chars)
    (stem suffix : Chars) :
    archivePath existing stem suffix ∉ existing
    ∧ (stem ++ suffix ∉ existing →
        archivePath existing stem suffix = stem ++ suffix)
    ∧ (stem ++ suffix ∈ existing → candidate stem suffix 1 ∉ existing →
        archivePath existing stem suffix = candidate stem suffix 1) :=
  ⟨archivePath_not_mem existing stem suffix,
    fun h1 => archivePath_free existing h1,
    fun h1 h2 => archivePath_one_collision h1 h2⟩

/-- C8, witness: archiving a second "a.png" while "a.png" is already in
the archive yields "a_1.png". -/
theorem archive_collision_renaming_witness :
    archivePath [toL "a.png"] (toL "a") (toL ".png") = toL "a_1.png"
    ∧ archivePath [toL "a.png"] (toL "a") (toL ".png") ∉ [toL "a.png"] := by
  have h := archive_collision_renaming [toL "a.png"] (toL "a") (toL ".png")
  have h3 := h.2.2 (by decide) (by decide)
  refine ⟨?_, h.1⟩
  rw [h3]
  decide

/-- C9, counterexample: during a concrete insert, a reader can observe
the truncated (empty) file, which is neither the prior document nor the
final document — the write is not atomic. -/
theorem insert_write_not_atomic :
    ∃ sObs ∈ insertObservations (defaultDoc (toL "now")) (toL "s.png")
        (toL "T") (toL "Ans"),
      sObs ≠ defaultDoc (toL "now")
      ∧ sObs ≠ insertNewest (defaultDoc (toL "now")) (toL "s.png")
          (toL "T") (toL "Ans") := by
  refine ⟨[], by simp [insertObservations], by decide, by decide⟩

/-- C9 (amended): the insert writes the document back in place with a
truncating open followed by a write, so the observable file states are
the old document, the empty file, and the new document, in that order;
for a nonempty document a concurrent reader can therefore observe a
state that is neither the old nor the new document. No temporary file,
rename, or lock is involved. -/
theorem insert_write_truncates (doc name ts answer : Chars)
    (hdoc : doc ≠ []) :
    insertObservations doc name ts answer
      = [doc, [], insertNewest doc name ts answer]
    ∧ [] ∈ insertObservations doc name ts answer
    ∧ ¬ (∀ sObs ∈ insertObservations doc name ts answer,
          sObs = doc ∨ sObs = insertNewest doc name ts answer) := by
  refine ⟨rfl, by simp [insertObservations], ?_⟩
  intro hall
  rcases hall [] (by simp [insertObservations]) with h | h
  · exact hdoc h.symm
  · exact insertNewest_ne_nil doc name ts answer h.symm

/-- C9, witness: the truncation observation on a concrete document. -/
theorem insert_write_truncates_witness :
    insertObservations (defaultDoc (toL "now")) (toL "s.png") (toL "T")
        (toL "Ans")
      = [defaultDoc (toL "now"), [],
         insertNewest (defaultDoc (toL "now")) (toL "s.png") (toL "T")
           (toL "Ans")]
    ∧ [] ∈ insertObservations (defaultDoc (toL "now")) (toL "s.png")
        (toL "T") (toL "Ans")
    ∧ ¬ (∀ sObs ∈ insertObservations (defaultDoc (toL "now")) (toL "s.png")
          (toL "T") (toL "Ans"),
          sObs = defaultDoc (toL "now")
          ∨ sObs = insertNewest (defaultDoc (toL "now")) (toL "s.png")
              (toL "T") (toL "Ans")) :=
  insert_write_truncates (defaultDoc (toL "now")) (toL "s.png") (toL "T")
    (toL "Ans") (by decide)

/-- C10: all three provider request builders declare the image payload
as image/png — the OpenAI data URL, the Anthropic media_type field and
the Gemini mime_type field — for every payload; and a JPEG-named
screenshot is accepted by the classifier (its guessed type being
image/jpeg) yet still labelled image/png. -/
theorem provider_requests_label_png :
    (∀ b64 : Chars,
        dataUrlMediaType (mkOpenAIImagePart b64).url = toL "image/png")
    ∧ (∀ b64 : Chars,
        (mkAnthropicImageSource b64).mediaType = toL "image/png")
    ∧ (∀ imageData : Chars,
        (mkGeminiImagePart imageData).mimeType = toL "image/png")
    ∧ isCandidate (toL "Screenshot 1.jpg") = true
    ∧ guessMime (toL "Screenshot 1.jpg") = some (toL "image/jpeg") :=
  ⟨fun _ => rfl, fun _ => rfl, fun _ => rfl, by decide, by decide⟩
